import Mathlib

/-!
Verification of the `iter_vals` crate (`src/lib.rs`).

The crate exports a single macro, `iter_vals!`, which builds an iterator
from an ordered list of fragments.  Its expansion rules are:

* `iter_vals!()`                 becomes `core::iter::empty()`;
* `iter_vals!([..= cond; val])`  becomes
  `if cond { Some(val) } else { None }.into_iter()` (a conditional fragment);
* `iter_vals!([.. val])`         becomes `val.into_iter()` (an expand fragment);
* `iter_vals!(val)`              becomes `core::iter::once(val)` (a single fragment);
* `iter_vals!(f1, f2, …, fn)`    becomes
  `iter_vals!(f1).chain(iter_vals!(f2)).chain(…).chain(iter_vals!(fn))`,
  a left-associated chain of the leaf iterators.

We embed the run-time iterator values that this expansion produces as an
inductive state type `FIter` with a step function `next`, mirroring the
behaviour of `core::iter::Empty`, `core::option::IntoIter`,
`core::iter::Once` (which wraps `Some(v).into_iter()`), a finite list
source, and `core::iter::Chain` (whose two slots are `Option<I>` in Rust;
an emptied slot is modelled by the dedicated state `cleared`).

Every element yielded by `next` is annotated with the identity of the
expand-source iterator it was pulled from (`some tag`), or `none` when it
came from a `once`/conditional leaf; the annotation makes the consumption
of expand sources observable, so that exactly-once and no-speculation
properties can be stated.

A second copy of the state machine, `XIter`, additionally admits infinite
stream sources, so that finiteness of the composed sequence can be related
to finiteness of the expand sources.
-/

namespace IterVals

/-- Run-time iterator states produced by the `iter_vals!` expansion.

* `empty` is `core::iter::empty()`.
* `cleared` is the `None` value of a `Chain` slot (`Chain` in Rust stores
  `Option<A>`/`Option<B>` and writes `None` into a slot once that side has
  reported exhaustion).
* `optIter o` is `o.into_iter()` for an `Option` — this is both the state
  of a conditional fragment (`if cond { Some(val) } else { None }.into_iter()`)
  and, in the form `optIter (some v)`, the state of `core::iter::once(v)`
  (whose implementation wraps exactly `Some(v).into_iter()`).
* `srcIter tag xs` is a finite single-pass source iterator (for example a
  `vec![…].into_iter()`) with remaining elements `xs`; `tag` is an
  observation label identifying the source, with no behavioural role.
* `chain a b` is `a.chain(b)`, i.e. Rust's `Chain { a, b }`. -/
inductive FIter (α : Type) where
  | empty : FIter α
  | cleared : FIter α
  | optIter : Option α → FIter α
  | srcIter : Nat → List α → FIter α
  | chain : FIter α → FIter α → FIter α
deriving DecidableEq, Repr

/-- One call of `Iterator::next` on an `FIter` state.  Returns the yielded
element (annotated with the tag of the source it came from, or `none` for a
`once`/conditional leaf) together with the successor state; the first
component is `none` when the call signals exhaustion.

The `chain` case is Rust's
`and_then_or_clear(&mut self.a, Iterator::next).or_else(|| self.b.as_mut()?.next())`:
the left slot is pulled first; as soon as it reports exhaustion it is
overwritten with `None` (here `cleared`) and the right slot is pulled
during the same call; the right slot is *not* cleared by `next` when it
reports exhaustion. -/
def next {α : Type} : FIter α → Option (Option Nat × α) × FIter α
  | .empty => (none, .empty)
  | .cleared => (none, .cleared)
  | .optIter none => (none, .optIter none)
  | .optIter (some v) => (some (none, v), .optIter none)
  | .srcIter t [] => (none, .srcIter t [])
  | .srcIter t (x :: xs) => (some (some t, x), .srcIter t xs)
  | .chain a b =>
    match next a with
    | (some o, a') => (some o, .chain a' b)
    | (none, _) =>
      match next b with
      | (some o, b') => (some o, .chain .cleared b')
      | (none, b') => (none, .chain .cleared b')

/-- The annotated sequence of elements an `FIter` state will yield from now
until exhaustion: each element paired with the tag of the source iterator
it is pulled from (`none` for `once`/conditional leaves). -/
def atoList {α : Type} : FIter α → List (Option Nat × α)
  | .empty => []
  | .cleared => []
  | .optIter none => []
  | .optIter (some v) => [(none, v)]
  | .srcIter t xs => xs.map (fun x => (some t, x))
  | .chain a b => atoList a ++ atoList b

/-- The plain (unannotated) sequence of elements an `FIter` will yield. -/
def toList {α : Type} (s : FIter α) : List α :=
  (atoList s).map Prod.snd

/-- Calling `next` `n` times in succession: collects the annotated outputs
of all `n` calls (exhaustion signals contribute nothing) and returns the
state after the `n` calls. -/
def run {α : Type} : Nat → FIter α → List (Option Nat × α) × FIter α
  | 0, s => ([], s)
  | n + 1, s =>
    match next s with
    | (some o, s') =>
      let r := run n s'
      (o :: r.1, r.2)
    | (none, s') => run n s'

/-- A fragment of an `iter_vals!` invocation.

* `single v` is a plain value argument (the `$val:expr` arm).
* `conditional p v` is `[..= p; v]` (the conditional arm); `p` is the value
  the predicate expression evaluates to.
* `expand s` is `[.. src]` (the expand arm), where `s` is the iterator that
  `src.into_iter()` produces — an arbitrary `FIter`, since any single-pass
  iterator (including another composed sequence) may serve as the source. -/
inductive Frag (α : Type) where
  | single : α → Frag α
  | conditional : Bool → α → Frag α
  | expand : FIter α → Frag α
deriving DecidableEq, Repr

/-- The leaf iterator one fragment expands to:
`core::iter::once(v)` holds the state `Some(v).into_iter()`;
the conditional arm builds `if p { Some(v) } else { None }.into_iter()`,
evaluating the predicate at construction of the expression;
the expand arm is `src.into_iter()`, which for an iterator source is the
source itself. -/
def fragIter {α : Type} : Frag α → FIter α
  | .single v => .optIter (some v)
  | .conditional p v => .optIter (if p then some v else none)
  | .expand s => s

/-- Folds a nonempty list of leaf iterators into the left-associated chain
`i1.chain(i2).chain(…).chain(in)` that the recursive macro arm produces;
the empty invocation produces `core::iter::empty()`. -/
def buildAux {α : Type} : List (FIter α) → FIter α
  | [] => .empty
  | i :: is => is.foldl (fun acc j => .chain acc j) i

/-- The composed iterator `iter_vals!(f1, …, fn)` builds. -/
def build {α : Type} (fs : List (Frag α)) : FIter α :=
  buildAux (fs.map fragIter)

/-- Instrumented leaf construction.  Evaluating the expression a fragment
expands to is what happens at construction of the composed iterator; the
second component counts how many conditional-predicate evaluations that
evaluation performs.  The conditional arm expands to
`if cond { Some(val) } else { None }.into_iter()`, whose evaluation
evaluates the predicate exactly once; the other arms contain no predicate. -/
def fragIterCount {α : Type} : Frag α → FIter α × Nat
  | .single v => (.optIter (some v), 0)
  | .conditional p v => (.optIter (if p then some v else none), 1)
  | .expand s => (s, 0)

/-- Instrumented construction of the composed iterator: the macro's chain
arm evaluates every leaf expression when the composed expression itself is
evaluated, i.e. during construction and before any pull, so the predicate
evaluations of all leaves happen at construction.  Returns the built
iterator together with the total number of predicate evaluations performed
during construction.  The resulting state (`FIter`) contains no predicate,
so no pull can evaluate one. -/
def buildCount {α : Type} (fs : List (Frag α)) : FIter α × Nat :=
  (buildAux ((fs.map fragIterCount).map Prod.fst),
   ((fs.map fragIterCount).map Prod.snd).sum)

/-- The number of conditional fragments in a fragment list. -/
def countConditionals {α : Type} (fs : List (Frag α)) : Nat :=
  fs.countP fun f =>
    match f with
    | .conditional _ _ => true
    | _ => false

/-- The annotated elements one fragment contributes. -/
def fragContrib {α : Type} : Frag α → List (Option Nat × α)
  | .single v => [(none, v)]
  | .conditional p v => if p then [(none, v)] else []
  | .expand s => atoList s

/-- The elements one fragment contributes, as the specification describes
them: a single fragment contributes its value, a conditional fragment
contributes its value exactly when the predicate is true, an expand
fragment contributes every element of its source in source order. -/
def elems {α : Type} : Frag α → List α
  | .single v => [v]
  | .conditional p v => if p then [v] else []
  | .expand s => toList s

/-- Iterator states over possibly-infinite sources: the same state machine
as `FIter`, with an additional constructor `streamIter f` for an infinite
source iterator whose `n`-th pull yields `f n` and never exhausts.  Tags
are dropped since only lengths matter here. -/
inductive XIter (α : Type) where
  | empty : XIter α
  | cleared : XIter α
  | optIter : Option α → XIter α
  | srcIter : List α → XIter α
  | streamIter : (Nat → α) → XIter α
  | chain : XIter α → XIter α → XIter α

/-- One call of `Iterator::next` on an `XIter` state; same semantics as
`next` on `FIter`, with the stream source always yielding. -/
def xnext {α : Type} : XIter α → Option α × XIter α
  | .empty => (none, .empty)
  | .cleared => (none, .cleared)
  | .optIter none => (none, .optIter none)
  | .optIter (some v) => (some v, .optIter none)
  | .srcIter [] => (none, .srcIter [])
  | .srcIter (x :: xs) => (some x, .srcIter xs)
  | .streamIter f => (some (f 0), .streamIter (fun n => f (n + 1)))
  | .chain a b =>
    match xnext a with
    | (some o, a') => (some o, .chain a' b)
    | (none, _) =>
      match xnext b with
      | (some o, b') => (some o, .chain .cleared b')
      | (none, b') => (none, .chain .cleared b')

/-- The state reached after `n` pulls. -/
def xstate {α : Type} (n : Nat) (s : XIter α) : XIter α :=
  (fun t => (xnext t).2)^[n] s

/-- The sequence exhausts: some pull signals end of sequence.  Exhausting
the sequence therefore takes only finitely many pulls. -/
def Exhausts {α : Type} (s : XIter α) : Prop :=
  ∃ n, (xnext (xstate n s)).1 = none

/-- The number of elements an `XIter` will still yield, `⊤` when it yields
forever. -/
def xlen {α : Type} : XIter α → WithTop Nat
  | .empty => 0
  | .cleared => 0
  | .optIter none => 0
  | .optIter (some _) => 1
  | .srcIter xs => (xs.length : WithTop Nat)
  | .streamIter _ => ⊤
  | .chain a b => xlen a + xlen b

/-- Fragments over possibly-infinite expand sources. -/
inductive XFrag (α : Type) where
  | single : α → XFrag α
  | conditional : Bool → α → XFrag α
  | expand : XIter α → XFrag α

/-- The leaf iterator one fragment expands to (`XIter` version). -/
def xfragIter {α : Type} : XFrag α → XIter α
  | .single v => .optIter (some v)
  | .conditional p v => .optIter (if p then some v else none)
  | .expand s => s

/-- Left-associated chain of leaf iterators (`XIter` version). -/
def xbuildAux {α : Type} : List (XIter α) → XIter α
  | [] => .empty
  | i :: is => is.foldl (fun acc j => .chain acc j) i

/-- The composed iterator `iter_vals!(f1, …, fn)` builds (`XIter` version). -/
def xbuild {α : Type} (fs : List (XFrag α)) : XIter α :=
  xbuildAux (fs.map xfragIter)

/-- A fragment's contribution is finite: always true for single and
conditional fragments; for an expand fragment, its source exhausts. -/
def FragFinite {α : Type} : XFrag α → Prop
  | .single _ => True
  | .conditional _ _ => True
  | .expand s => Exhausts s

/-- One `next` call yields exactly the head of `atoList` and leaves a state
whose `atoList` is the tail. -/
theorem next_eq_head_tail {α : Type} (s : FIter α) :
    (next s).1 = (atoList s).head? ∧ atoList (next s).2 = (atoList s).tail := by
  induction s with
  | empty => simp [next, atoList]
  | cleared => simp [next, atoList]
  | optIter o => cases o <;> simp [next, atoList]
  | srcIter t xs => cases xs <;> simp [next, atoList]
  | chain a b iha ihb =>
    rcases ha : next a with ⟨oa, a'⟩
    rcases hb : next b with ⟨ob, b'⟩
    rcases iha with ⟨iha1, iha2⟩
    rcases ihb with ⟨ihb1, ihb2⟩
    rw [ha] at iha1 iha2
    rw [hb] at ihb1 ihb2
    cases oa with
    | some o =>
      have hne : atoList a ≠ [] := by
        intro h
        rw [h] at iha1
        simp at iha1
      rcases List.exists_cons_of_ne_nil hne with ⟨x, xs, hx⟩
      rw [hx] at iha1 iha2
      simp at iha1
      simp [next, ha, atoList, hx, iha2, ← iha1]
    | none =>
      have ha0 : atoList a = [] := by
        cases h : atoList a with
        | nil => rfl
        | cons x xs => rw [h] at iha1; simp at iha1
      cases ob with
      | some o =>
        have hne : atoList b ≠ [] := by
          intro h
          rw [h] at ihb1
          simp at ihb1
        rcases List.exists_cons_of_ne_nil hne with ⟨x, xs, hx⟩
        rw [hx] at ihb1 ihb2
        simp at ihb1
        simp [next, ha, hb, atoList, ha0, hx, ihb2, ← ihb1]
      | none =>
        have hb0 : atoList b = [] := by
          cases h : atoList b with
          | nil => rfl
          | cons x xs => rw [h] at ihb1; simp at ihb1
        have hb0' : atoList b' = [] := by
          rw [ihb2, hb0]
          rfl
        simp [next, ha, hb, atoList, ha0, hb0, hb0']

theorem next_fst {α : Type} (s : FIter α) : (next s).1 = (atoList s).head? :=
  (next_eq_head_tail s).1

theorem next_snd {α : Type} (s : FIter α) : atoList (next s).2 = (atoList s).tail :=
  (next_eq_head_tail s).2

/-- Running `n` pulls yields exactly the first `n` annotated elements and
leaves a state that will still yield exactly the remaining ones. -/
theorem run_spec {α : Type} (n : Nat) (s : FIter α) :
    (run n s).1 = (atoList s).take n ∧ atoList (run n s).2 = (atoList s).drop n := by
  induction n generalizing s with
  | zero => simp [run]
  | succ n ih =>
    rcases h : next s with ⟨o, s'⟩
    have h1 := next_fst s
    have h2 := next_snd s
    rw [h] at h1 h2
    cases ho : atoList s with
    | nil =>
      rw [ho] at h1 h2
      simp at h1 h2
      subst h1
      rcases ih s' with ⟨ih1, ih2⟩
      rw [h2] at ih1 ih2
      simp [run, h, ih1, ih2, ho]
    | cons x xs =>
      rw [ho] at h1 h2
      simp at h1 h2
      subst h1
      rcases ih s' with ⟨ih1, ih2⟩
      rw [h2] at ih1 ih2
      simp [run, h, ih1, ih2, ho]

theorem run_fst {α : Type} (n : Nat) (s : FIter α) :
    (run n s).1 = (atoList s).take n :=
  (run_spec n s).1

theorem run_snd {α : Type} (n : Nat) (s : FIter α) :
    atoList (run n s).2 = (atoList s).drop n :=
  (run_spec n s).2

theorem atoList_fragIter {α : Type} (f : Frag α) :
    atoList (fragIter f) = fragContrib f := by
  cases f with
  | single v => simp [fragIter, fragContrib, atoList]
  | conditional p v => cases p <;> simp [fragIter, fragContrib, atoList]
  | expand s => simp [fragIter, fragContrib]

theorem elems_eq_map_fragContrib {α : Type} (f : Frag α) :
    elems f = (fragContrib f).map Prod.snd := by
  cases f with
  | single v => simp [elems, fragContrib]
  | conditional p v => cases p <;> simp [elems, fragContrib]
  | expand s => simp [elems, fragContrib, toList]

theorem atoList_buildAux_foldl {α : Type} (js : List (FIter α)) (acc : FIter α) :
    atoList (js.foldl (fun a j => FIter.chain a j) acc)
      = atoList acc ++ js.flatMap atoList := by
  induction js generalizing acc with
  | nil => simp
  | cons j js ih => simp [List.foldl_cons, ih, atoList]

theorem atoList_buildAux {α : Type} (is : List (FIter α)) :
    atoList (buildAux is) = is.flatMap atoList := by
  cases is with
  | nil => simp [buildAux, atoList]
  | cons i is => simp [buildAux, atoList_buildAux_foldl]

/-- The annotated elements of the composed iterator are the in-order
concatenation of the fragments' contributions. -/
theorem atoList_build {α : Type} (fs : List (Frag α)) :
    atoList (build fs) = fs.flatMap fragContrib := by
  rw [build, atoList_buildAux, List.flatMap_map]
  congr 1
  funext f
  exact atoList_fragIter f

theorem toList_build {α : Type} (fs : List (Frag α)) :
    toList (build fs) = fs.flatMap elems := by
  rw [toList, atoList_build]
  induction fs with
  | nil => simp
  | cons f fs ih => simp [ih, elems_eq_map_fragContrib]

theorem toList_build_append {α : Type} (xs ys : List (Frag α)) :
    toList (build (xs ++ ys)) = toList (build xs) ++ toList (build ys) := by
  simp [toList_build]

/-- One `xnext` call signals exhaustion exactly when no elements remain; a
yield decreases the remaining length by one; a signalled exhaustion leaves
a state with no remaining elements. -/
theorem xnext_spec {α : Type} (s : XIter α) :
    ((xnext s).1 = none ↔ xlen s = 0)
      ∧ (∀ x, (xnext s).1 = some x → xlen (xnext s).2 + 1 = xlen s)
      ∧ ((xnext s).1 = none → xlen (xnext s).2 = 0) := by
  induction s with
  | empty => simp [xnext, xlen]
  | cleared => simp [xnext, xlen]
  | optIter o => cases o <;> simp [xnext, xlen]
  | srcIter xs =>
    cases xs with
    | nil => simp [xnext, xlen]
    | cons x xs =>
      refine ⟨by simp [xnext, xlen], fun y hy => ?_, by simp [xnext]⟩
      simp [xnext, xlen]
  | streamIter f => simp [xnext, xlen]
  | chain a b iha ihb =>
    rcases ha : xnext a with ⟨oa, a'⟩
    rcases hb : xnext b with ⟨ob, b'⟩
    rcases iha with ⟨iha1, iha2, iha3⟩
    rcases ihb with ⟨ihb1, ihb2, ihb3⟩
    rw [ha] at iha1 iha2 iha3
    rw [hb] at ihb1 ihb2 ihb3
    cases oa with
    | some o =>
      have hla : xlen a ≠ 0 := by
        intro h0
        have := iha1.mpr h0
        simp at this
      have hstep : xlen a' + 1 = xlen a := iha2 o rfl
      refine ⟨?_, ?_, ?_⟩
      · simp only [xnext, ha, xlen]
        constructor
        · intro h; simp at h
        · intro h
          rcases (add_eq_zero).mp h with ⟨h1, _⟩
          exact absurd h1 hla
      · intro x hx
        simp only [xnext, ha] at hx ⊢
        simp only [xlen]
        rw [add_right_comm, hstep]
      · intro h
        simp [xnext, ha] at h
    | none =>
      have hla : xlen a = 0 := iha1.mp rfl
      cases ob with
      | some o =>
        have hlb : xlen b ≠ 0 := by
          intro h0
          have := ihb1.mpr h0
          simp at this
        have hstep : xlen b' + 1 = xlen b := ihb2 o rfl
        refine ⟨?_, ?_, ?_⟩
        · simp only [xnext, ha, hb, xlen]
          constructor
          · intro h; simp at h
          · intro h
            rcases (add_eq_zero).mp h with ⟨_, h2⟩
            exact absurd h2 hlb
        · intro x hx
          simp only [xnext, ha, hb] at hx ⊢
          simp only [xlen, hla]
          rw [zero_add, zero_add, hstep]
        · intro h
          simp [xnext, ha, hb] at h
      | none =>
        have hlb : xlen b = 0 := ihb1.mp rfl
        have hlb' : xlen b' = 0 := ihb3 rfl
        refine ⟨?_, ?_, ?_⟩
        · simp [xnext, ha, hb, xlen, hla, hlb]
        · intro x hx
          simp [xnext, ha, hb] at hx
        · intro h
          simp [xnext, ha, hb, xlen, hlb']

theorem xnext_none_iff {α : Type} (s : XIter α) :
    (xnext s).1 = none ↔ xlen s = 0 :=
  (xnext_spec s).1

theorem xnext_some_len {α : Type} (s : XIter α) (x : α) (h : (xnext s).1 = some x) :
    xlen (xnext s).2 + 1 = xlen s :=
  (xnext_spec s).2.1 x h

/-- An iterator of infinite remaining length stays infinite under pulls. -/
theorem xlen_xstate_top {α : Type} (s : XIter α) (h : xlen s = ⊤) (n : Nat) :
    xlen (xstate n s) = ⊤ := by
  induction n with
  | zero => exact h
  | succ n ih =>
    have hstep : xstate (n + 1) s = (xnext (xstate n s)).2 := by
      simp [xstate, Function.iterate_succ_apply']
    rw [hstep]
    cases hx : (xnext (xstate n s)).1 with
    | none =>
      exfalso
      have := (xnext_none_iff (xstate n s)).mp hx
      rw [ih] at this
      simp at this
    | some x =>
      have := xnext_some_len (xstate n s) x hx
      rw [ih] at this
      rcases (WithTop.add_eq_top).mp this with h1 | h1
      · exact h1
      · simp at h1

/-- An iterator of infinite remaining length never signals exhaustion. -/
theorem not_exhausts_of_top {α : Type} (s : XIter α) (h : xlen s = ⊤) :
    ¬ Exhausts s := by
  rintro ⟨n, hn⟩
  have h1 := (xnext_none_iff (xstate n s)).mp hn
  rw [xlen_xstate_top s h n] at h1
  simp at h1

/-- An iterator of finite remaining length eventually signals exhaustion. -/
theorem exhausts_of_finite {α : Type} :
    ∀ (m : Nat) (s : XIter α), xlen s = WithTop.some m → Exhausts s := by
  intro m
  induction m using Nat.strong_induction_on with
  | _ m ih =>
    intro s hs
    cases hx : (xnext s).1 with
    | none => exact ⟨0, hx⟩
    | some x =>
      have hstep := xnext_some_len s x hx
      have hne : xlen (xnext s).2 ≠ ⊤ := by
        intro htop
        rw [htop, top_add, hs] at hstep
        exact (WithTop.coe_ne_top hstep.symm)
      rcases WithTop.ne_top_iff_exists.mp hne with ⟨k, hk⟩
      have hkm : k + 1 = m := by
        rw [← hk, hs] at hstep
        have h1 : (1 : WithTop Nat) = WithTop.some 1 := rfl
        rw [h1, ← WithTop.coe_add] at hstep
        exact_mod_cast hstep
      have hklt : k < m := by omega
      rcases ih k hklt (xnext s).2 hk.symm with ⟨n, hn⟩
      refine ⟨n + 1, ?_⟩
      have : xstate (n + 1) s = xstate n (xnext s).2 := by
        simp [xstate, Function.iterate_succ_apply]
      rw [this]
      exact hn

/-- The composed (or any) iterator exhausts exactly when its remaining
length is finite. -/
theorem exhausts_iff_ne_top {α : Type} (s : XIter α) :
    Exhausts s ↔ xlen s ≠ ⊤ := by
  constructor
  · intro h htop
    exact not_exhausts_of_top s htop h
  · intro h
    rcases WithTop.ne_top_iff_exists.mp h with ⟨m, hm⟩
    exact exhausts_of_finite m s hm.symm

theorem xlen_xbuildAux_foldl {α : Type} (js : List (XIter α)) (acc : XIter α) :
    xlen (js.foldl (fun a j => XIter.chain a j) acc)
      = xlen acc + (js.map xlen).sum := by
  induction js generalizing acc with
  | nil => simp
  | cons j js ih => simp [List.foldl_cons, ih, xlen, add_assoc]

theorem xlen_xbuildAux {α : Type} (is : List (XIter α)) :
    xlen (xbuildAux is) = (is.map xlen).sum := by
  cases is with
  | nil => simp [xbuildAux, xlen]
  | cons i is => simp [xbuildAux, xlen_xbuildAux_foldl]

theorem list_sum_ne_top (l : List (WithTop Nat)) :
    l.sum ≠ ⊤ ↔ ∀ x ∈ l, x ≠ ⊤ := by
  induction l with
  | nil => simp
  | cons x l ih =>
    simp only [List.sum_cons, List.mem_cons]
    constructor
    · intro h
      have hx : x ≠ ⊤ := fun hx => h (by rw [hx, top_add])
      have hl : l.sum ≠ ⊤ := fun hl => h (by rw [hl, add_top])
      rintro y (rfl | hy)
      · exact hx
      · exact ih.mp hl y hy
    · intro h hsum
      rcases (WithTop.add_eq_top).mp hsum with h1 | h1
      · exact h x (Or.inl rfl) h1
      · exact (ih.mpr fun y hy => h y (Or.inr hy)) h1

theorem fragFinite_iff_xlen {α : Type} (f : XFrag α) :
    FragFinite f ↔ xlen (xfragIter f) ≠ ⊤ := by
  cases f with
  | single v =>
    simp [FragFinite, xfragIter, xlen]
  | conditional p v =>
    cases p <;> simp [FragFinite, xfragIter, xlen]
  | expand s =>
    simp only [FragFinite, xfragIter]
    exact exhausts_iff_ne_top s

/-- C1: for every fragment list the composed sequence equals the
concatenation, in listed order, of each fragment's own contributed
elements: the full yielded sequence is the flat concatenation, and after
any number `n` of pulls exactly its first `n` elements have been yielded —
no reordering, dropping, or duplication. -/
theorem compose_preserves_fragment_order_c1 {α : Type} (fs : List (Frag α)) :
    toList (build fs) = fs.flatMap elems
    ∧ ∀ n : Nat, ((run n (build fs)).1).map Prod.snd = (fs.flatMap elems).take n := by
  refine ⟨toList_build fs, fun n => ?_⟩
  rw [run_fst, List.map_take]
  congr 1
  exact toList_build fs

/-- C2: a conditional fragment contributes exactly its one value when the
predicate is true and exactly zero elements (no placeholder, no else
value) when it is false, wherever it occurs in the fragment list. -/
theorem conditional_contributes_iff_true_c2 {α : Type} (p : Bool) (v : α)
    (ls rs : List (Frag α)) :
    toList (build (ls ++ Frag.conditional p v :: rs))
      = toList (build ls) ++ (if p then [v] else []) ++ toList (build rs) := by
  cases p <;> simp [toList_build, elems]

/-- C3: an expand fragment contributes every element of its source, in the
source's own order, positioned after everything the fragments to its left
contribute; the annotated outputs of the first `n` pulls are exactly the
first `n` entries of that concatenation (so each source element is pulled
exactly once over the whole lifetime, at the pull that yields it), and the
residual state still holds exactly the not-yet-yielded entries (so nothing
is consumed speculatively before the cursor reaches it, no matter how the
pulls are split into pause/resume rounds). -/
theorem expand_consumed_in_order_exactly_once_c3 {α : Type} (src : FIter α)
    (ls rs : List (Frag α)) (n : Nat) :
    (run n (build (ls ++ Frag.expand src :: rs))).1
      = (ls.flatMap fragContrib ++ atoList src ++ rs.flatMap fragContrib).take n
    ∧ atoList ((run n (build (ls ++ Frag.expand src :: rs))).2)
      = (ls.flatMap fragContrib ++ atoList src ++ rs.flatMap fragContrib).drop n := by
  have hb : atoList (build (ls ++ Frag.expand src :: rs))
      = ls.flatMap fragContrib ++ atoList src ++ rs.flatMap fragContrib := by
    simp [atoList_build, fragContrib]
  exact ⟨by rw [run_fst, hb], by rw [run_snd, hb]⟩

/-- C4: exhaustion is terminal and idempotent: once a pull signals end of
sequence, every later pull yields nothing and signals end of sequence
again. -/
theorem exhaustion_is_terminal_c4 {α : Type} (s : FIter α)
    (h : (next s).1 = none) (k : Nat) :
    (run k (next s).2).1 = [] ∧ (next ((run k (next s).2).2)).1 = none := by
  have h0 : atoList s = [] := by
    have hh := next_fst s
    rw [h] at hh
    exact (List.head?_eq_none_iff).mp hh.symm
  have h1 : atoList (next s).2 = [] := by
    rw [next_snd, h0]
    rfl
  constructor
  · rw [run_fst, h1]
    simp
  · rw [next_fst, run_snd, h1]
    simp

/-- Witness for C4: pulling `compose(single(1))` once exhausts it; the pull
after that signals exhaustion, and two further pulls yield nothing and
still signal exhaustion. -/
theorem exhaustion_is_terminal_c4_witness :
    (next ((run 1 (build [Frag.single (1 : Nat)])).2)).1 = none
    ∧ ((run 2 (next ((run 1 (build [Frag.single (1 : Nat)])).2)).2).1 = []
       ∧ (next ((run 2 (next ((run 1 (build [Frag.single (1 : Nat)])).2)).2).2)).1 = none) :=
  ⟨by decide,
   exhaustion_is_terminal_c4 ((run 1 (build [Frag.single (1 : Nat)])).2) (by decide) 2⟩

/-- C5 counterexample: the claim says a conditional fragment's predicate is
checked only when the pull cursor reaches the fragment, never eagerly at
construction time — so constructing a composed sequence and pulling zero
times would have to perform zero predicate evaluations.  Constructing
`compose(conditional(true, 5))` already performs one: the conditional arm
expands to the expression `if cond { Some(val) } else { None }.into_iter()`,
which is evaluated when the composed iterator is built. -/
theorem conditional_not_lazy_c5_counterexample :
    (buildCount [Frag.conditional true (5 : Nat)]).2 ≠ 0 := by
  decide

theorem fragIterCount_fst {α : Type} (f : Frag α) :
    (fragIterCount f).1 = fragIter f := by
  cases f <;> rfl

set_option linter.unnecessarySeqFocus false in
theorem predEvals_eq_countConditionals {α : Type} (fs : List (Frag α)) :
    ((fs.map fragIterCount).map Prod.snd).sum = countConditionals fs := by
  induction fs with
  | nil => rfl
  | cons f fs ih =>
    rw [List.map_cons, List.map_cons, List.sum_cons, ih]
    cases f <;> simp [fragIterCount, countConditionals, List.countP_cons] <;> omega

/-- C5 amended: each conditional fragment's predicate is evaluated exactly
once in total — but at construction time of the composed sequence (the
macro expansion evaluates every leaf expression, including the conditional
arm's `if`, when the composed expression is built), not when the pull
cursor reaches the fragment.  The instrumented construction performs
exactly one predicate evaluation per conditional fragment and builds the
same iterator; the built state contains no predicate, so no pull can
re-evaluate one, and pulls therefore leave the total count unchanged. -/
theorem conditional_evaluated_once_at_construction_c5 {α : Type}
    (fs : List (Frag α)) :
    (buildCount fs).1 = build fs ∧ (buildCount fs).2 = countConditionals fs := by
  have hm : (fs.map fragIterCount).map Prod.fst = fs.map fragIter := by
    rw [List.map_map]
    exact List.map_congr_left fun f _ => fragIterCount_fst f
  constructor
  · simp only [buildCount]
    rw [hm, build]
  · simp only [buildCount]
    exact predEvals_eq_countConditionals fs

/-- C6: composing zero fragments yields the empty iterator: the first pull
signals exhaustion and any number of pulls yields no element; no error
state exists. -/
theorem empty_compose_yields_nothing_c6 (α : Type) (k : Nat) :
    build ([] : List (Frag α)) = FIter.empty
    ∧ (next (build ([] : List (Frag α)))).1 = none
    ∧ (run k (build ([] : List (Frag α)))).1 = [] := by
  refine ⟨rfl, rfl, ?_⟩
  rw [run_fst]
  simp [build, buildAux, atoList]

/-- C7: a single fragment contributes exactly one element, its value,
wherever it occurs in the fragment list. -/
theorem single_contributes_value_c7 {α : Type} (v : α) (ls rs : List (Frag α)) :
    toList (build (ls ++ Frag.single v :: rs))
      = toList (build ls) ++ [v] ++ toList (build rs) := by
  simp [toList_build, elems]

/-- C8: the composed sequence exhausts after finitely many pulls exactly
when every constituent expand fragment's source is finite (single and
conditional fragments are always finite); with an infinite expand source
the composed sequence never signals exhaustion. -/
theorem finite_iff_all_sources_finite_c8 {α : Type} (fs : List (XFrag α)) :
    Exhausts (xbuild fs) ↔ ∀ f ∈ fs, FragFinite f := by
  rw [exhausts_iff_ne_top, xbuild, xlen_xbuildAux, List.map_map, list_sum_ne_top]
  constructor
  · intro h f hf
    rw [fragFinite_iff_xlen]
    exact h _ (List.mem_map.mpr ⟨f, hf, rfl⟩)
  · intro h x hx
    rcases List.mem_map.mp hx with ⟨f, hf, rfl⟩
    exact (fragFinite_iff_xlen f).mp (h f hf)

/-- C9: a composed sequence used as an expand source flattens to its own
elements by ordinary composition: expanding `compose(fs)` in the middle of
a fragment list yields exactly the sequence of the flattened list. -/
theorem nested_composition_flattens_c9 {α : Type} (ls fs rs : List (Frag α)) :
    toList (build (ls ++ [Frag.expand (build fs)] ++ rs))
      = toList (build (ls ++ fs ++ rs)) := by
  simp [toList_build, elems]

/-- C10: when a conditional fragment's predicate is false its value has no
effect whatsoever: replacing the value leaves the built iterator state —
and even the instrumented construction, predicate-evaluation count
included — literally identical, so the composed sequences are identical.
(The conditional arm expands to `if cond { Some(val) } else { None }`, whose
false branch never evaluates `val`.) -/
theorem conditional_false_value_never_used_c10 {α : Type} (v1 v2 : α)
    (ls rs : List (Frag α)) :
    build (ls ++ Frag.conditional false v1 :: rs)
      = build (ls ++ Frag.conditional false v2 :: rs)
    ∧ buildCount (ls ++ Frag.conditional false v1 :: rs)
      = buildCount (ls ++ Frag.conditional false v2 :: rs) := by
  have h1 : fragIter (Frag.conditional false v1) = fragIter (Frag.conditional false v2) := rfl
  have h2 : fragIterCount (Frag.conditional false v1)
      = fragIterCount (Frag.conditional false v2) := rfl
  have hmap1 : (ls ++ Frag.conditional false v1 :: rs).map fragIter
      = (ls ++ Frag.conditional false v2 :: rs).map fragIter := by
    simp [h1]
  have hmap2 : (ls ++ Frag.conditional false v1 :: rs).map fragIterCount
      = (ls ++ Frag.conditional false v2 :: rs).map fragIterCount := by
    simp [h2]
  exact ⟨by rw [build, hmap1, build], by rw [buildCount, hmap2, buildCount]⟩

end IterVals
